import Mathlib

/-!
# Verification of `neuralmonkey` multi-head scaled dot-product attention
# and the embedded-factor sequence provider

Shallow embedding of `src/neuralmonkey/attention/scaled_dot_product.py` and
`src/neuralmonkey/model/sequence.py`.  Tensors are modelled as curried
functions over `Fin` index types with real entries; the TensorFlow dataflow
graph is evaluated denotationally.  Construction-time validation
(`__init__` methods raising errors) is modelled with `Except String`.
-/

namespace NeuralMonkey

/-- An attention energy: either a real value or `-inf` (the value used by
`mask_future` to disable a position).  `-np.inf` is a legal IEEE float, so
the energy tensor in the source can carry it; we model the float line
`ℝ ∪ {-∞}` with this sum type. -/
inductive Energy where
  | negInf : Energy
  | val : ℝ → Energy

/-- `exp` extended to `-∞` by its limit `0`, which is also what IEEE
evaluation of `exp(-inf)` inside `tf.nn.softmax` yields. -/
noncomputable def Energy.exp : Energy → ℝ
  | .negInf => 0
  | .val x => Real.exp x

/-- `tf.layers.dense(x, Dout)`: a learned affine map with bias applied to the
channel (last) axis of a 3D tensor. -/
noncomputable def denseLayer {B T Din Dout : ℕ}
    (W : Fin Din → Fin Dout → ℝ) (bias : Fin Dout → ℝ)
    (x : Fin B → Fin T → Fin Din → ℝ) : Fin B → Fin T → Fin Dout → ℝ :=
  fun b t j => (∑ i, x b t i * W i j) + bias j

/-- The flat channel index corresponding to head `h`, per-head channel `c`
when `H * hd` channels are split into `H` contiguous blocks of size `hd`
(the row-major `tf.reshape` of `split_for_heads`). -/
def headIndex {H hd : ℕ} (h : Fin H) (c : Fin hd) : Fin (H * hd) :=
  ⟨h.val * hd + c.val, by
    have hc := c.isLt
    have h2 : (h.val + 1) * hd ≤ H * hd :=
      Nat.mul_le_mul_right hd h.isLt
    have h3 : (h.val + 1) * hd = h.val * hd + hd := Nat.succ_mul _ _
    omega⟩

/-- `split_for_heads` (scaled_dot_product.py:27-34): split the last dimension
of a `(batch, time, H*hd)` tensor and transpose to
`(batch, head, time, hd)`. -/
def split_for_heads {B T H hd : ℕ}
    (x : Fin B → Fin T → Fin (H * hd) → ℝ) :
    Fin B → Fin H → Fin T → Fin hd → ℝ :=
  fun b h t c => x b t (headIndex h c)

/-- `query_scaled = query_proj * self._scaling_factor`
(scaled_dot_product.py:151), where `_scaling_factor = 1/sqrt(head_dim)`
(scaled_dot_product.py:94). -/
noncomputable def scaleQuery {B T D : ℕ} (hd : ℕ)
    (x : Fin B → Fin T → Fin D → ℝ) : Fin B → Fin T → Fin D → ℝ :=
  fun b t c => x b t c * (1 / Real.sqrt hd)

/-- `energies = tf.matmul(query, keys, transpose_b=True)`
(scaled_dot_product.py:160): batched dot products along the per-head
channel axis. -/
noncomputable def dotEnergies {B H Tq Tk hd : ℕ}
    (query : Fin B → Fin H → Fin Tq → Fin hd → ℝ)
    (keys : Fin B → Fin H → Fin Tk → Fin hd → ℝ) :
    Fin B → Fin H → Fin Tq → Fin Tk → ℝ :=
  fun b h q k => ∑ c, query b h q c * keys b h k c

/-- `mask_future` (scaled_dot_product.py:49-54): keep the lower triangle
(key index ≤ query index) of the energies, replace the strict upper
triangle by `-inf`. -/
def mask_future {B H Tq Tk : ℕ}
    (energies : Fin B → Fin H → Fin Tq → Fin Tk → ℝ) :
    Fin B → Fin H → Fin Tq → Fin Tk → Energy :=
  fun b h q k => if (k : ℕ) ≤ (q : ℕ) then .val (energies b h q k) else .negInf

/-- Inclusion of a plain real energy tensor into `Energy` (the unmasked
branch: no entry is `-inf`). -/
def toEnergyVal {B H Tq Tk : ℕ}
    (energies : Fin B → Fin H → Fin Tq → Fin Tk → ℝ) :
    Fin B → Fin H → Fin Tq → Fin Tk → Energy :=
  fun b h q k => .val (energies b h q k)

/-- `tf.nn.softmax(energies)` (scaled_dot_product.py:170) along the last
(key-time) axis. -/
noncomputable def softmax4d {B H Tq Tk : ℕ}
    (e : Fin B → Fin H → Fin Tq → Fin Tk → Energy) :
    Fin B → Fin H → Fin Tq → Fin Tk → ℝ :=
  fun b h q k => (e b h q k).exp / ∑ j, (e b h q j).exp

/-- `mask_weights` (scaled_dot_product.py:37-46): multiply the softmax
weights by the validity mask (broadcast over head and query-time) and
renormalize each row by its sum plus `1e-8`. -/
noncomputable def mask_weights {B H Tq Tk : ℕ}
    (weights_4d : Fin B → Fin H → Fin Tq → Fin Tk → ℝ)
    (mask : Fin B → Fin Tk → ℝ) :
    Fin B → Fin H → Fin Tq → Fin Tk → ℝ :=
  fun b h q k =>
    weights_4d b h q k * mask b k /
      ((∑ j, weights_4d b h q j * mask b j) + 1e-8)

/-- Modelled from the spec: the helper `dropout` from
`neuralmonkey.nn.utils` is imported by scaled_dot_product.py:16 but its
module is not part of the sources.  Spec: "elementwise
zero-with-probability-(1-p), rescale survivors by 1/p, active only in
training mode; identity in inference mode", and "dropout-keep
probability = 1 yields deterministic (no-op) dropout".  The random
per-element keep decision is passed in explicitly as `keep`. -/
noncomputable def dropoutEl (keepProb : ℝ) (trainMode : Bool) (keep : Bool)
    (x : ℝ) : ℝ :=
  if keepProb = 1 then x
  else if trainMode then (if keep then x / keepProb else 0)
  else x

/-- The transpose-and-reshape merging heads back to full channel width
(scaled_dot_product.py:187-191): channel `d` of the merged tensor is
per-head channel `d % hd` of head `d / hd`, inverse of `headIndex`. -/
def mergeHeads {B Tq H hd : ℕ}
    (c4 : Fin B → Fin H → Fin Tq → Fin hd → ℝ) :
    Fin B → Fin Tq → Fin (H * hd) → ℝ :=
  fun b q d =>
    c4 b ⟨d.val / hd, by
        rcases Nat.eq_zero_or_pos hd with h0 | h0
        · exact absurd d.isLt (by simp [h0])
        · have hlt := d.isLt
          exact Nat.div_lt_of_lt_mul
            (Nat.lt_of_lt_of_eq hlt (Nat.mul_comm H hd))⟩
      q ⟨d.val % hd, by
        rcases Nat.eq_zero_or_pos hd with h0 | h0
        · exact absurd d.isLt (by simp [h0])
        · exact Nat.mod_lt _ h0⟩

/-- `MultiHeadAttention.attention_4d` (scaled_dot_product.py:125-196).

The learned parameters of the three input projections (used only when
`1 < H`), the output projection, the attention mask of the keys encoder
(`attnMask`, `None` when the encoder has no mask), the train-mode flag and
dropout keep decisions are explicit arguments.  Channel width is
`H * hd` (`self._dimension = n_heads * head_dim`).  Returns the pair
`(context_3d, weights_4d)`. -/
noncomputable def attention_4d {B Tq Tk H hd : ℕ}
    (trainMode : Bool) (keepProb : ℝ)
    (keepMask : Fin B → Fin H → Fin Tq → Fin Tk → Bool)
    (attnMask : Option (Fin B → Fin Tk → ℝ))
    (Wq Wk Wv Wo : Fin (H * hd) → Fin (H * hd) → ℝ)
    (bq bk bv bo : Fin (H * hd) → ℝ)
    (query_3d : Fin B → Fin Tq → Fin (H * hd) → ℝ)
    (keys values : Fin B → Fin Tk → Fin (H * hd) → ℝ)
    (masked : Bool) :
    (Fin B → Fin Tq → Fin (H * hd) → ℝ) ×
      (Fin B → Fin H → Fin Tq → Fin Tk → ℝ) :=
  let query_proj := if 1 < H then denseLayer Wq bq query_3d else query_3d
  let keys_proj := if 1 < H then denseLayer Wk bk keys else keys
  let vals_proj := if 1 < H then denseLayer Wv bv values else values
  let query := split_for_heads (scaleQuery hd query_proj)
  let keys4 := split_for_heads keys_proj
  let values4 := split_for_heads vals_proj
  let energies := dotEnergies query keys4
  let energiesE := if masked then mask_future energies else toEnergyVal energies
  let weights_sm := softmax4d energiesE
  let weights_m :=
    match attnMask with
    | some m => mask_weights weights_sm m
    | none => weights_sm
  let weights_4d := fun b h q k =>
    dropoutEl keepProb trainMode (keepMask b h q k) (weights_m b h q k)
  let context_4d := fun b h q c => ∑ k, weights_4d b h q k * values4 b h k c
  let context_3d := denseLayer Wo bo (mergeHeads context_4d)
  (context_3d, weights_4d)

/-- The configuration state stored by `MultiHeadAttention.__init__` after
validation (scaled_dot_product.py:59-94).  The dropout keep probability (a
Python float compared only against 0 and 1) is carried as a rational; the
derived real scaling factor is `MHA.scalingFactor`. -/
structure MHA where
  nHeads : ℕ
  dropoutKeepProb : ℚ
  dimension : ℕ
  valuesDim : ℕ
  headDim : ℕ
  deriving DecidableEq

/-- `MultiHeadAttention.__init__` (scaled_dot_product.py:59-94).
`keysChannels` is the channel width of the keys encoder's states (from
which `self._dimension` is derived) and `valuesChannels` the channel width
of the values encoder, `none` meaning the `values_encoder is None` default
(values taken from the keys encoder). -/
def MultiHeadAttention.init (nHeads : ℤ) (dropoutKeepProb : ℚ)
    (keysChannels : ℕ) (valuesChannels : Option ℕ) : Except String MHA :=
  if nHeads ≤ 0 then
    .error "Number of heads must be greater than zero."
  else if dropoutKeepProb ≤ 0 ∨ 1 < dropoutKeepProb then
    .error "Dropout keep prob must be inside (0,1]."
  else if (keysChannels : ℤ) % nHeads ≠ 0 then
    .error "Model dimension must be divisible by the number of heads"
  else
    .ok { nHeads := nHeads.toNat
          dropoutKeepProb := dropoutKeepProb
          dimension := keysChannels
          valuesDim := valuesChannels.getD keysChannels
          headDim := keysChannels / nHeads.toNat }

/-- `self._scaling_factor = 1 / math.sqrt(self._head_dim)`
(scaled_dot_product.py:94). -/
noncomputable def MHA.scalingFactor (cfg : MHA) : ℝ :=
  1 / Real.sqrt cfg.headDim

/-- The `context_vector_size` property (scaled_dot_product.py:214-216):
the channel width of `self.attention_values`. -/
def MHA.context_vector_size (cfg : MHA) : ℕ := cfg.valuesDim

/-- The channel width of the `context_3d` tensor returned by
`attention_4d`: the head-merging reshape produces `n_heads * head_dim`
channels (scaled_dot_product.py:188-191, the type of `mergeHeads`) and the
output projection maps to `self._dimension` channels
(scaled_dot_product.py:193-194). -/
def MHA.contextChannels (cfg : MHA) : ℕ := cfg.nHeads * cfg.headDim

/-- `tf.TensorArray` modelled as the list of entries written so far.
`attention` always writes at index `step` equal to the current size, which
appends (the `dynamic_size=True` growth); an in-range index overwrites. -/
def TensorArray.write {α : Type} (ta : List α) (i : ℕ) (v : α) : List α :=
  if i = ta.length then ta ++ [v] else ta.set i v

/-- `TensorArray.stack`: the dense `[time, ...]` tensor holding every
written entry; its time-length is the list length. -/
def TensorArray.stack {α : Type} (ta : List α) : List α := ta

/-- `MultiHeadLoopStateTA` (scaled_dot_product.py:21-23): one contexts
array and one weights array per head.  `γ` is the type of a single-step
context slice, `ω` the type of a single-step per-head weight vector. -/
structure MultiHeadLoopStateTA (H : ℕ) (γ ω : Type) where
  contexts : List γ
  head_weights : Fin H → List ω

/-- `MultiHeadAttention.initial_loop_state` (scaled_dot_product.py:198-206):
empty arrays (`size=0, dynamic_size=True`). -/
def MultiHeadAttention.initial_loop_state (H : ℕ) {γ ω : Type} :
    MultiHeadLoopStateTA H γ ω :=
  { contexts := [], head_weights := fun _ => [] }

/-- The history key `"{}_head{}".format(key, i)` used by `finalize_loop`
and `visualize_attention` (scaled_dot_product.py:212, 220). -/
def headHistoryKey (key : String) (i : ℕ) : String :=
  key ++ "_head" ++ toString i

/-- `MultiHeadAttention.finalize_loop` (scaled_dot_product.py:208-212):
for each head `i`, stack its weights array and store it in the
`self.histories` dictionary under `"{key}_head{i}"`. -/
def MultiHeadAttention.finalize_loop {H : ℕ} {γ ω : Type} (key : String)
    (last_loop_state : MultiHeadLoopStateTA H γ ω)
    (histories : String → Option (List ω)) : String → Option (List ω) :=
  (List.finRange H).foldl
    (fun hist i =>
      Function.update hist (headHistoryKey key i.val)
        (some (TensorArray.stack (last_loop_state.head_weights i))))
    histories

/-- `MultiHeadAttention.attention` (scaled_dot_product.py:96-123): expand
the 2D query to a single timestep, run `attention_4d` (with `masked`
left at its default `False`), squeeze the time axis away, and write the
context and each head's weight vector into the loop state at index
`step`.  `decoder_prev_state` and `decoder_input` are accepted and unused,
as in the source. -/
noncomputable def MultiHeadAttention.attention {B Tk H hd : ℕ}
    (trainMode : Bool) (keepProb : ℝ)
    (keepMask : Fin B → Fin H → Fin 1 → Fin Tk → Bool)
    (attnMask : Option (Fin B → Fin Tk → ℝ))
    (Wq Wk Wv Wo : Fin (H * hd) → Fin (H * hd) → ℝ)
    (bq bk bv bo : Fin (H * hd) → ℝ)
    (keys values : Fin B → Fin Tk → Fin (H * hd) → ℝ)
    (query : Fin B → Fin (H * hd) → ℝ)
    (decoder_prev_state decoder_input : Fin B → ℝ)
    (loop_state :
      MultiHeadLoopStateTA H (Fin B → Fin (H * hd) → ℝ) (Fin B → Fin Tk → ℝ))
    (step : ℕ) :
    (Fin B → Fin (H * hd) → ℝ) ×
      MultiHeadLoopStateTA H (Fin B → Fin (H * hd) → ℝ)
        (Fin B → Fin Tk → ℝ) :=
  let r := @attention_4d B 1 Tk H hd trainMode keepProb keepMask attnMask
    Wq Wk Wv Wo bq bk bv bo (fun b _ c => query b c) keys values false
  let context := fun b c => r.1 b 0 c
  let head_weights := fun (i : Fin H) => fun b k => r.2 b i 0 k
  (context,
    { contexts := TensorArray.write loop_state.contexts step context
      head_weights := fun i =>
        TensorArray.write (loop_state.head_weights i) step (head_weights i) })

/-- The external autoregressive decode loop the spec describes: starting
from `initial_loop_state`, call `attention` once per step
`t = 0, 1, ..., T-1`, feeding query `queries t` at step `t` and threading
the loop state through. -/
noncomputable def stepLoop {B Tk H hd : ℕ}
    (trainMode : Bool) (keepProb : ℝ)
    (keepMask : Fin B → Fin H → Fin 1 → Fin Tk → Bool)
    (attnMask : Option (Fin B → Fin Tk → ℝ))
    (Wq Wk Wv Wo : Fin (H * hd) → Fin (H * hd) → ℝ)
    (bq bk bv bo : Fin (H * hd) → ℝ)
    (keys values : Fin B → Fin Tk → Fin (H * hd) → ℝ)
    (queries : ℕ → Fin B → Fin (H * hd) → ℝ)
    (decoder_prev_state decoder_input : Fin B → ℝ) :
    ℕ → MultiHeadLoopStateTA H (Fin B → Fin (H * hd) → ℝ)
          (Fin B → Fin Tk → ℝ)
  | 0 => MultiHeadAttention.initial_loop_state H
  | t + 1 =>
    (MultiHeadAttention.attention trainMode keepProb keepMask attnMask
      Wq Wk Wv Wo bq bk bv bo keys values (queries t)
      decoder_prev_state decoder_input
      (stepLoop trainMode keepProb keepMask attnMask Wq Wk Wv Wo bq bk bv bo
        keys values queries decoder_prev_state decoder_input t) t).2

/-- `Sequence.__init__` (sequence.py:30-49): the only validation is that a
supplied `max_length` is positive. -/
def Sequence.init (max_length : Option ℤ) : Except String Unit :=
  match max_length with
  | some m =>
    if m ≤ 0 then .error "Max sequence length must be a positive integer."
    else .ok ()
  | none => .ok ()

/-- The state stored by `EmbeddedFactorSequence.__init__`
(sequence.py:93-98).  Vocabularies are represented by their sizes
(`len(vocab)`), the only datum of a vocabulary this constructor uses. -/
structure EmbeddedFactorSequence where
  vocabulary_sizes : List ℕ
  data_ids : List String
  embedding_sizes : List ℤ
  max_length : Option ℤ
  add_start_symbol : Bool
  add_end_symbol : Bool
  deriving DecidableEq

/-- `EmbeddedFactorSequence.__init__` (sequence.py:57-114): run
`Sequence.__init__` (max-length check), then require the three parallel
lists to have equal length and every embedding size to be positive. -/
def EmbeddedFactorSequence.init (vocabularies : List ℕ)
    (data_ids : List String) (embedding_sizes : List ℤ)
    (max_length : Option ℤ) (add_start_symbol add_end_symbol : Bool) :
    Except String EmbeddedFactorSequence :=
  match Sequence.init max_length with
  | .error e => .error e
  | .ok _ =>
    if ¬(data_ids.length = vocabularies.length ∧
        vocabularies.length = embedding_sizes.length) then
      .error "data_ids, vocabularies, and embedding_sizes lists need to have the same length"
    else if embedding_sizes.any (fun e => e ≤ 0) then
      .error "Embedding size must be a positive integer."
    else
      .ok { vocabulary_sizes := vocabularies
            data_ids := data_ids
            embedding_sizes := embedding_sizes
            max_length := max_length
            add_start_symbol := add_start_symbol
            add_end_symbol := add_end_symbol }

/-- Plain scaled dot-product attention written from the spec's formula
`softmax(QKᵗ/√d)V` (spec §8: the reference point of the single-head
equivalence property), for comparison with `attention_4d`. -/
noncomputable def plainAttention {B Tq Tk d : ℕ}
    (query : Fin B → Fin Tq → Fin d → ℝ)
    (keys values : Fin B → Fin Tk → Fin d → ℝ) :
    Fin B → Fin Tq → Fin d → ℝ :=
  fun b q c => ∑ k,
    (Real.exp ((∑ i, query b q i * keys b k i) / Real.sqrt d) /
      ∑ j, Real.exp ((∑ i, query b q i * keys b j i) / Real.sqrt d)) *
    values b k c

/-- The single channel index of a `H = 1, head_dim = 1` tensor (the
channel type is `Fin (1 * 1)`, on which numeric literals do not
elaborate). -/
def c0 : Fin (1 * 1) := ⟨0, Nat.one_pos⟩

/-!
## Theorems
-/

/-- Helper: a sum over the single-element index type `Fin (1 * 1)`. -/
theorem sum_fin_one {M : Type} [AddCommMonoid M] (f : Fin (1 * 1) → M) :
    ∑ i, f i = f c0 :=
  Fin.sum_univ_one f

/-- Helper: dropout of an exactly-zero weight is exactly zero in every
mode: a dropped entry becomes `0` and a kept entry is rescaled to
`0 / p = 0`. -/
theorem dropoutEl_zero (keepProb : ℝ) (trainMode : Bool) (keep : Bool) :
    dropoutEl keepProb trainMode keep 0 = 0 := by
  unfold dropoutEl
  split_ifs <;> simp

/-- Helper: dropout with keep probability 1 is the identity (the spec's
"keep-prob 1 is a no-op"). -/
theorem dropoutEl_one (trainMode : Bool) (keep : Bool) (x : ℝ) :
    dropoutEl 1 trainMode keep x = x := by
  unfold dropoutEl
  rw [if_pos rfl]

/-- C4: constructing the multi-head attention engine fails if and only if
the head count is not positive, or the dropout-keep probability lies
outside `(0,1]`, or the model dimension derived from the keys source is
not divisible by the head count; for all other inputs construction
succeeds. -/
theorem mha_init_error_iff (nHeads : ℤ) (p : ℚ) (keysChannels : ℕ)
    (valuesChannels : Option ℕ) :
    (∃ msg, MultiHeadAttention.init nHeads p keysChannels valuesChannels
        = .error msg)
      ↔ nHeads ≤ 0 ∨ p ≤ 0 ∨ 1 < p ∨ ¬ (nHeads ∣ (keysChannels : ℤ)) := by
  have hdvd : nHeads ∣ (keysChannels : ℤ) ↔ (keysChannels : ℤ) % nHeads = 0 :=
    Int.dvd_iff_emod_eq_zero
  unfold MultiHeadAttention.init
  by_cases h1 : nHeads ≤ 0
  · rw [if_pos h1]
    exact iff_of_true ⟨_, rfl⟩ (Or.inl h1)
  · rw [if_neg h1]
    by_cases h2 : p ≤ 0 ∨ 1 < p
    · rw [if_pos h2]
      exact iff_of_true ⟨_, rfl⟩ (Or.inr (h2.imp id Or.inl))
    · rw [if_neg h2]
      by_cases h3 : (keysChannels : ℤ) % nHeads ≠ 0
      · rw [if_pos h3]
        exact iff_of_true ⟨_, rfl⟩
          (Or.inr (Or.inr (Or.inr (fun hd => h3 (hdvd.mp hd)))))
      · rw [if_neg h3]
        refine iff_of_false (by simp) ?_
        rintro (h | h | h | h)
        · exact h1 h
        · exact h2 (Or.inl h)
        · exact h2 (Or.inr h)
        · exact h (hdvd.mpr (not_not.mp h3))

/-- C8: constructing the embedded-factor sequence provider fails if and
only if the three parallel lists have differing lengths, or some embedding
size is not positive, or a maximum length is supplied that is not
positive; otherwise construction succeeds. -/
theorem efs_init_error_iff (vocabularies : List ℕ) (data_ids : List String)
    (embedding_sizes : List ℤ) (max_length : Option ℤ) (s e : Bool) :
    (∃ msg, EmbeddedFactorSequence.init vocabularies data_ids
        embedding_sizes max_length s e = .error msg)
      ↔ ¬ (data_ids.length = vocabularies.length ∧
            vocabularies.length = embedding_sizes.length)
        ∨ (∃ sz ∈ embedding_sizes, sz ≤ 0)
        ∨ (∃ m, max_length = some m ∧ m ≤ 0) := by
  unfold EmbeddedFactorSequence.init
  have hany : (embedding_sizes.any fun e => decide (e ≤ 0)) = true
      ↔ ∃ sz ∈ embedding_sizes, sz ≤ 0 := by
    simp [List.any_eq_true]
  have hlists :
      (∃ msg,
          (if ¬ (data_ids.length = vocabularies.length ∧
                vocabularies.length = embedding_sizes.length) then
            (Except.error
              "data_ids, vocabularies, and embedding_sizes lists need to have the same length" :
              Except String EmbeddedFactorSequence)
          else if embedding_sizes.any (fun e => e ≤ 0) then
            .error "Embedding size must be a positive integer."
          else
            .ok { vocabulary_sizes := vocabularies
                  data_ids := data_ids
                  embedding_sizes := embedding_sizes
                  max_length := max_length
                  add_start_symbol := s
                  add_end_symbol := e }) = .error msg)
        ↔ ¬ (data_ids.length = vocabularies.length ∧
              vocabularies.length = embedding_sizes.length)
          ∨ (∃ sz ∈ embedding_sizes, sz ≤ 0) := by
    by_cases h1 : data_ids.length = vocabularies.length ∧
        vocabularies.length = embedding_sizes.length
    · rw [if_neg (not_not.mpr h1)]
      by_cases h2 : (embedding_sizes.any fun e => decide (e ≤ 0)) = true
      · rw [if_pos h2]
        exact iff_of_true ⟨_, rfl⟩ (Or.inr (hany.mp h2))
      · rw [if_neg h2]
        refine iff_of_false (by simp) ?_
        rintro (h | h)
        · exact h h1
        · exact h2 (hany.mpr h)
    · rw [if_pos h1]
      exact iff_of_true ⟨_, rfl⟩ (Or.inl h1)
  rcases max_length with _ | m
  · rw [show (Sequence.init none) = .ok () from rfl]
    refine hlists.trans ?_
    constructor
    · exact fun h => h.imp id Or.inl
    · rintro (h | h | ⟨m, hm, _⟩)
      · exact Or.inl h
      · exact Or.inr h
      · cases hm
  · by_cases h0 : m ≤ 0
    · rw [show (Sequence.init (some m)) = if m ≤ 0 then
          .error "Max sequence length must be a positive integer."
          else .ok () from rfl, if_pos h0]
      exact iff_of_true ⟨_, rfl⟩ (Or.inr (Or.inr ⟨m, rfl, h0⟩))
    · rw [show (Sequence.init (some m)) = if m ≤ 0 then
          .error "Max sequence length must be a positive integer."
          else .ok () from rfl, if_neg h0]
      refine hlists.trans ?_
      constructor
      · exact fun h => h.imp id Or.inl
      · rintro (h | h | ⟨m', hm, hle⟩)
        · exact Or.inl h
        · exact Or.inr h
        · cases hm
          exact absurd hle h0

/-- C7 counterexample: the engine can be constructed with a values source
narrower than the keys source (head count 2, keys width 2, values width
1); then the context channel width (the model dimension, 2) differs from
what the `context_vector_size` property reports (the values width, 1), so
the claimed equality fails. -/
theorem context_size_counterexample :
    (MultiHeadAttention.init 2 1 2 (some 1)).map
        (fun cfg => (cfg.contextChannels, cfg.context_vector_size))
      = .ok (2, 1) ∧ (2 : ℕ) ≠ 1 := by
  constructor
  · rfl
  · decide

/-- C7 (amended): for every engine whose values source has the same
channel width as the keys source — in particular whenever the values
encoder is omitted and defaults to the keys encoder — the context
vector's channel width equals the values source's channel count, and
`context_vector_size` reports that same number, regardless of the head
count. -/
theorem context_size_eq (nHeads : ℤ) (p : ℚ) (keysChannels : ℕ)
    (valuesChannels : Option ℕ) (cfg : MHA)
    (hok : MultiHeadAttention.init nHeads p keysChannels valuesChannels
      = .ok cfg)
    (hsame : cfg.valuesDim = cfg.dimension) :
    cfg.contextChannels = cfg.context_vector_size := by
  unfold MultiHeadAttention.init at hok
  split_ifs at hok with h1 h2 h3
  have hmod : (keysChannels : ℤ) % nHeads = 0 := not_not.mp h3
  have hpos : 0 < nHeads := lt_of_not_le h1
  have hdvd : nHeads.toNat ∣ keysChannels := by
    have : nHeads ∣ (keysChannels : ℤ) :=
      Int.dvd_iff_emod_eq_zero.mpr hmod
    rcases this with ⟨c, hc⟩
    have hcnn : 0 ≤ c := by
      by_contra hneg
      push_neg at hneg
      have : (keysChannels : ℤ) < 0 := by
        calc (keysChannels : ℤ) = nHeads * c := hc
          _ < 0 := mul_neg_of_pos_of_neg hpos hneg
      omega
    refine ⟨c.toNat, ?_⟩
    have hc2 : (keysChannels : ℤ) = ((nHeads.toNat * c.toNat : ℕ) : ℤ) := by
      push_cast
      rw [Int.toNat_of_nonneg hpos.le, Int.toNat_of_nonneg hcnn]
      exact hc
    exact_mod_cast hc2
  cases hok
  simp only [MHA.contextChannels, MHA.context_vector_size] at *
  rw [Nat.mul_div_cancel' hdvd]
  exact hsame.symm

/-- Witness for C7's amended theorem: head count 2, keys width 2, values
source defaulted to the keys source. -/
theorem context_size_eq_witness :
    MHA.contextChannels
        { nHeads := 2, dropoutKeepProb := 1, dimension := 2,
          valuesDim := 2, headDim := 1 }
      = MHA.context_vector_size
          { nHeads := 2, dropoutKeepProb := 1, dimension := 2,
            valuesDim := 2, headDim := 1 } :=
  context_size_eq 2 1 2 none _ (by rfl) (by rfl)

/-- Helper: a left fold of map updates leaves every key that is never
written unchanged. -/
theorem foldl_update_of_notin {ι κ ν : Type} [DecidableEq κ] (l : List ι)
    (f : ι → κ) (g : ι → ν) (m : κ → Option ν) (k : κ)
    (h : ∀ i ∈ l, f i ≠ k) :
    l.foldl (fun hist i => Function.update hist (f i) (some (g i))) m k
      = m k := by
  induction l generalizing m with
  | nil => rfl
  | cons a l ih =>
    rw [List.foldl_cons, ih _ (fun i hi => h i (List.mem_cons_of_mem a hi))]
    exact Function.update_noteq
      (fun he => h a (List.mem_cons_self a l) he.symm) _ _

/-- Helper: after a left fold of map updates, a key that is written at
least once holds the value of one of the writes. -/
theorem foldl_update_of_written {ι κ ν : Type} [DecidableEq κ] (l : List ι)
    (f : ι → κ) (g : ι → ν) (m : κ → Option ν) (k : κ)
    (h : ∃ i ∈ l, f i = k) :
    ∃ i ∈ l,
      l.foldl (fun hist i => Function.update hist (f i) (some (g i))) m k
        = some (g i) := by
  induction l generalizing m with
  | nil => simp at h
  | cons a l ih =>
    by_cases hl : ∃ i ∈ l, f i = k
    · obtain ⟨i, hi, heq⟩ := ih _ hl
      exact ⟨i, List.mem_cons_of_mem a hi, heq⟩
    · have hfa : f a = k := by
        rcases h with ⟨i, hi, hf⟩
        rcases List.mem_cons.mp hi with rfl | hmem
        · exact hf
        · exact absurd ⟨i, hmem, hf⟩ hl
      refine ⟨a, List.mem_cons_self a l, ?_⟩
      rw [List.foldl_cons,
        foldl_update_of_notin l f g _ k (fun i hi hf => hl ⟨i, hi, hf⟩),
        ← hfa]
      exact Function.update_same _ _ _

/-- Helper: after a left fold of map updates, every key either holds its
old value or the value of one of the writes. -/
theorem foldl_update_cases {ι κ ν : Type} [DecidableEq κ] (l : List ι)
    (f : ι → κ) (g : ι → ν) (m : κ → Option ν) (k : κ) :
    l.foldl (fun hist i => Function.update hist (f i) (some (g i))) m k
        = m k
      ∨ ∃ i ∈ l,
          l.foldl (fun hist i => Function.update hist (f i) (some (g i))) m k
            = some (g i) := by
  by_cases h : ∃ i ∈ l, f i = k
  · exact Or.inr (foldl_update_of_written l f g m k h)
  · refine Or.inl (foldl_update_of_notin l f g m k ?_)
    intro i hi hf
    exact h ⟨i, hi, hf⟩

/-- Helper: after a left fold of map updates along a duplicate-free list
whose key function is injective on the list, the key written by `i` holds
exactly the value written by `i`. -/
theorem foldl_update_lookup_eq {ι κ ν : Type} [DecidableEq κ] (l : List ι)
    (f : ι → κ) (g : ι → ν) (m : κ → Option ν) (i : ι)
    (hi : i ∈ l) (huniq : ∀ j ∈ l, f j = f i → j = i) (hnd : l.Nodup) :
    l.foldl (fun hist j => Function.update hist (f j) (some (g j))) m (f i)
      = some (g i) := by
  induction l generalizing m with
  | nil => cases hi
  | cons a l ih =>
    rcases List.mem_cons.mp hi with rfl | hmem
    · rw [List.foldl_cons]
      have hnotin : ∀ j ∈ l, f j ≠ f i := fun j hj hf =>
        (List.nodup_cons.mp hnd).1
          ((huniq j (List.mem_cons_of_mem i hj) hf) ▸ hj)
      rw [foldl_update_of_notin l f g _ (f i) hnotin]
      exact Function.update_same _ _ _
    · rw [List.foldl_cons]
      exact ih _ hmem
        (fun j hj hf => huniq j (List.mem_cons_of_mem a hj) hf)
        (List.nodup_cons.mp hnd).2

/-- Helper: the loop state after `T` sequential `attention` steps holds
exactly `T` contexts and `T` weight vectors per head: each step writes at
index `step` equal to the current array size, appending one entry. -/
theorem stepLoop_lengths {B Tk H hd : ℕ}
    (trainMode : Bool) (keepProb : ℝ)
    (keepMask : Fin B → Fin H → Fin 1 → Fin Tk → Bool)
    (attnMask : Option (Fin B → Fin Tk → ℝ))
    (Wq Wk Wv Wo : Fin (H * hd) → Fin (H * hd) → ℝ)
    (bq bk bv bo : Fin (H * hd) → ℝ)
    (keys values : Fin B → Fin Tk → Fin (H * hd) → ℝ)
    (queries : ℕ → Fin B → Fin (H * hd) → ℝ)
    (decoder_prev_state decoder_input : Fin B → ℝ) (T : ℕ) :
    (stepLoop trainMode keepProb keepMask attnMask Wq Wk Wv Wo bq bk bv bo
        keys values queries decoder_prev_state decoder_input T).contexts.length
        = T
    ∧ ∀ i : Fin H,
        ((stepLoop trainMode keepProb keepMask attnMask Wq Wk Wv Wo bq bk bv
            bo keys values queries decoder_prev_state decoder_input
            T).head_weights i).length = T := by
  induction T with
  | zero =>
    exact ⟨rfl, fun _ => rfl⟩
  | succ t ih =>
    constructor
    · show (TensorArray.write _ t _).length = t + 1
      rw [TensorArray.write, if_pos ih.1.symm, List.length_append, ih.1]
      rfl
    · intro i
      show (TensorArray.write _ t _).length = t + 1
      rw [TensorArray.write, if_pos (ih.2 i).symm, List.length_append, ih.2 i]
      rfl

/-- C6: for every `T ≥ 0`, creating the initial loop state, stepping `T`
times at sequential indices `0 .. T-1` and finalizing yields, for every
head, a stored history tensor of time-length exactly `T` (the contexts
stream also has length `T`); with `T = 0` the histories have time-length
`0` and finalization is still well defined. -/
theorem loop_state_roundtrip {B Tk H hd : ℕ}
    (trainMode : Bool) (keepProb : ℝ)
    (keepMask : Fin B → Fin H → Fin 1 → Fin Tk → Bool)
    (attnMask : Option (Fin B → Fin Tk → ℝ))
    (Wq Wk Wv Wo : Fin (H * hd) → Fin (H * hd) → ℝ)
    (bq bk bv bo : Fin (H * hd) → ℝ)
    (keys values : Fin B → Fin Tk → Fin (H * hd) → ℝ)
    (queries : ℕ → Fin B → Fin (H * hd) → ℝ)
    (decoder_prev_state decoder_input : Fin B → ℝ) (T : ℕ) (key : String)
    (histories : String → Option (List (Fin B → Fin Tk → ℝ))) :
    (stepLoop trainMode keepProb keepMask attnMask Wq Wk Wv Wo bq bk bv bo
        keys values queries decoder_prev_state decoder_input T).contexts.length
        = T
    ∧ ∀ i : Fin H, ∃ hist,
        MultiHeadAttention.finalize_loop key
            (stepLoop trainMode keepProb keepMask attnMask Wq Wk Wv Wo bq bk
              bv bo keys values queries decoder_prev_state decoder_input T)
            histories (headHistoryKey key i.val)
          = some hist ∧ hist.length = T := by
  have hlen := stepLoop_lengths trainMode keepProb keepMask attnMask
    Wq Wk Wv Wo bq bk bv bo keys values queries decoder_prev_state
    decoder_input T
  refine ⟨hlen.1, fun i => ?_⟩
  obtain ⟨j, _, hj⟩ := foldl_update_of_written (List.finRange H)
    (fun j : Fin H => headHistoryKey key j.val)
    (fun j : Fin H =>
      TensorArray.stack
        ((stepLoop trainMode keepProb keepMask attnMask Wq Wk Wv Wo bq bk bv
          bo keys values queries decoder_prev_state decoder_input
          T).head_weights j))
    histories (headHistoryKey key i.val) ⟨i, List.mem_finRange i, rfl⟩
  exact ⟨_, hj, hlen.2 j⟩

/-- Helper: the decimal digit characters `'0'..'9'` decode back to their
digit value. -/
theorem digitChar_toNat : ∀ d : ℕ, d < 10 → (Nat.digitChar d).toNat = 48 + d := by
  decide

/-- Helper: `Nat.toDigitsCore` does not depend on the fuel once the fuel
exceeds the number being rendered. -/
theorem toDigitsCore_fuel_irrel :
    ∀ (n f₁ f₂ : ℕ) (ds : List Char), n < f₁ → n < f₂ →
      Nat.toDigitsCore 10 f₁ n ds = Nat.toDigitsCore 10 f₂ n ds := by
  intro n
  induction n using Nat.strong_induction_on with
  | _ n ih =>
    intro f₁ f₂ ds h₁ h₂
    obtain ⟨g₁, rfl⟩ : ∃ k, f₁ = k + 1 := ⟨f₁ - 1, by omega⟩
    obtain ⟨g₂, rfl⟩ : ∃ k, f₂ = k + 1 := ⟨f₂ - 1, by omega⟩
    simp only [Nat.toDigitsCore]
    by_cases hq : n / 10 = 0
    · rw [if_pos hq, if_pos hq]
    · rw [if_neg hq, if_neg hq]
      have hn : 0 < n := by
        rcases Nat.eq_zero_or_pos n with rfl | h
        · exact absurd rfl hq
        · exact h
      have hd : n / 10 < n := Nat.div_lt_self hn (by norm_num)
      exact ih (n / 10) hd g₁ g₂ _ (by omega) (by omega)

/-- Helper: the decimal digit string of `n` is one character longer than
that of `n / 10` when the latter is nonzero. -/
theorem toDigits_length_step (n : ℕ) (h : n / 10 ≠ 0) :
    (Nat.toDigits 10 n).length = (Nat.toDigits 10 (n / 10)).length + 1 := by
  unfold Nat.toDigits
  simp only [Nat.toDigitsCore]
  rw [if_neg h]
  rw [Nat.toDigitsCore_lens_eq 10 n (n / 10) (Nat.digitChar (n % 10)) []]
  have hn : 0 < n := by
    rcases Nat.eq_zero_or_pos n with rfl | hpos
    · exact absurd rfl h
    · exact hpos
  rw [toDigitsCore_fuel_irrel (n / 10) n (n / 10 + 1) []
    (lt_of_lt_of_le (Nat.div_lt_self hn (by norm_num)) (le_refl n)) (by omega)]
  rfl

/-- Helper: folding the decimal digits produced by `Nat.toDigitsCore`
onto an accumulator shifts the accumulator and adds the number. -/
theorem toDigitsCore_foldl (n : ℕ) :
    ∀ (f acc : ℕ) (ds : List Char), n < f →
      List.foldl (fun a c => 10 * a + (c.toNat - 48)) acc
          (Nat.toDigitsCore 10 f n ds)
        = List.foldl (fun a c => 10 * a + (c.toNat - 48))
            (acc * 10 ^ (Nat.toDigits 10 n).length + n) ds := by
  induction n using Nat.strong_induction_on with
  | _ n ih =>
    intro f acc ds hf
    obtain ⟨g, rfl⟩ : ∃ k, f = k + 1 := ⟨f - 1, by omega⟩
    simp only [Nat.toDigitsCore]
    have hdigit : (Nat.digitChar (n % 10)).toNat - 48 = n % 10 := by
      rw [digitChar_toNat (n % 10) (Nat.mod_lt _ (by norm_num))]
      omega
    by_cases hq : n / 10 = 0
    · rw [if_pos hq, List.foldl_cons]
      have hn10 : n < 10 := by
        by_contra hge
        push_neg at hge
        have : 1 ≤ n / 10 := (Nat.one_le_div_iff (by norm_num)).mpr hge
        omega
      have hlen : (Nat.toDigits 10 n).length = 1 := by
        unfold Nat.toDigits
        simp only [Nat.toDigitsCore]
        rw [if_pos hq]
        rfl
      rw [hlen, hdigit, Nat.mod_eq_of_lt hn10]
      congr 1
      ring
    · rw [if_neg hq]
      have hn : 0 < n := by
        rcases Nat.eq_zero_or_pos n with rfl | h
        · exact absurd rfl hq
        · exact h
      have hd : n / 10 < n := Nat.div_lt_self hn (by norm_num)
      rw [ih (n / 10) hd g acc _ (by omega), List.foldl_cons]
      congr 1
      rw [hdigit, toDigits_length_step n hq, pow_succ]
      have h1 : 10 * (acc * 10 ^ (Nat.toDigits 10 (n / 10)).length)
          = acc * (10 ^ (Nat.toDigits 10 (n / 10)).length * 10) := by ring
      have h2 : 10 * (n / 10) + n % 10 = n := Nat.div_add_mod n 10
      omega

/-- Helper: folding the decimal digits of `n` recovers `n`. -/
theorem repr_foldl_eq (n : ℕ) :
    List.foldl (fun a c => 10 * a + (c.toNat - 48)) 0 (Nat.toDigits 10 n)
      = n := by
  unfold Nat.toDigits
  rw [toDigitsCore_foldl n (n + 1) 0 [] (by omega)]
  simp

/-- Helper: the decimal rendering of a natural number is injective. -/
theorem nat_repr_injective : Function.Injective Nat.repr := by
  intro a b h
  have hdata : Nat.toDigits 10 a = Nat.toDigits 10 b := congrArg String.data h
  have ha := repr_foldl_eq a
  rw [hdata, repr_foldl_eq b] at ha
  exact ha.symm

/-- Helper: for a fixed history key, the per-head history names
`"{key}_head{i}"` are pairwise distinct. -/
theorem headHistoryKey_inj (key : String) {i j : ℕ}
    (h : headHistoryKey key i = headHistoryKey key j) : i = j := by
  unfold headHistoryKey at h
  have hdata := congrArg String.data h
  simp only [String.data_append, List.append_assoc] at hdata
  have h1 := List.append_cancel_left hdata
  have h2 := List.append_cancel_left h1
  have h3 : Nat.repr i = Nat.repr j := String.ext h2
  exact nat_repr_injective h3

/-- C9: `finalize_loop` with key `key` stores exactly the `H` stacked
per-head weight streams, under keys `key_head0 .. key_head(H-1)`; it
changes no other history entry, and the per-step contexts stream is never
stored: every entry of the updated dictionary is either unchanged or one
of the stacked per-head weight streams. -/
theorem finalize_loop_frame {H : ℕ} {γ ω : Type} (key : String)
    (ls : MultiHeadLoopStateTA H γ ω) (histories : String → Option (List ω)) :
    (∀ i : Fin H,
        MultiHeadAttention.finalize_loop key ls histories
            (headHistoryKey key i.val)
          = some (TensorArray.stack (ls.head_weights i)))
    ∧ (∀ s, (∀ i : Fin H, s ≠ headHistoryKey key i.val) →
        MultiHeadAttention.finalize_loop key ls histories s = histories s)
    ∧ (∀ s,
        MultiHeadAttention.finalize_loop key ls histories s = histories s
        ∨ ∃ i : Fin H,
            MultiHeadAttention.finalize_loop key ls histories s
              = some (TensorArray.stack (ls.head_weights i))) := by
  have hinj : ∀ i j : Fin H,
      headHistoryKey key i.val = headHistoryKey key j.val → i = j :=
    fun i j h => Fin.ext (headHistoryKey_inj key h)
  refine ⟨fun i => ?_, fun s hs => ?_, fun s => ?_⟩
  · exact foldl_update_lookup_eq (List.finRange H)
      (fun j : Fin H => headHistoryKey key j.val)
      (fun j : Fin H => TensorArray.stack (ls.head_weights j)) histories i
      (List.mem_finRange i) (fun j _ hf => hinj j i hf)
      (List.nodup_finRange H)
  · exact foldl_update_of_notin (List.finRange H)
      (fun j : Fin H => headHistoryKey key j.val)
      (fun j : Fin H => TensorArray.stack (ls.head_weights j)) histories s
      (fun i _ hf => hs i hf.symm)
  · rcases foldl_update_cases (List.finRange H)
        (fun j : Fin H => headHistoryKey key j.val)
        (fun j : Fin H => TensorArray.stack (ls.head_weights j)) histories s
      with h | ⟨i, _, h⟩
    · exact Or.inl h
    · exact Or.inr ⟨i, h⟩

/-- C5: in `attention_4d` the precomputed scaling factor `1/sqrt(D/H)`
multiplies the (projected) query — never the keys — before the dot-product
energies are formed: each energy equals the scaling factor times the dot
product of the unscaled projected query slice with the unscaled key
slice. -/
theorem energies_scale_query_only {B H Tq Tk hd : ℕ}
    (query_proj : Fin B → Fin Tq → Fin (H * hd) → ℝ)
    (keys_proj : Fin B → Fin Tk → Fin (H * hd) → ℝ)
    (b : Fin B) (h : Fin H) (q : Fin Tq) (k : Fin Tk) :
    dotEnergies (split_for_heads (scaleQuery hd query_proj))
        (split_for_heads keys_proj) b h q k
      = (1 / Real.sqrt hd) *
          ∑ c, query_proj b q (headIndex h c) * keys_proj b k (headIndex h c) := by
  unfold dotEnergies split_for_heads scaleQuery
  rw [Finset.mul_sum]
  exact Finset.sum_congr rfl (fun c _ => by ring)

/-- C10: on a row whose validity-mask entries are all zero, the
renormalization divisor of `mask_weights` is `0 + 1e-8 ≠ 0` (no division
by zero), and the output row is exactly zero, so its sum is `0`, not
`1`. -/
theorem mask_weights_zero_row {B H Tq Tk : ℕ}
    (w : Fin B → Fin H → Fin Tq → Fin Tk → ℝ) (mask : Fin B → Fin Tk → ℝ)
    (b : Fin B) (h : Fin H) (q : Fin Tq) (hmask : ∀ k, mask b k = 0) :
    ((∑ j, w b h q j * mask b j) + 1e-8 ≠ 0)
    ∧ (∀ k, mask_weights w mask b h q k = 0)
    ∧ (∑ k, mask_weights w mask b h q k) = 0 := by
  have hS : (∑ j, w b h q j * mask b j) = 0 := by
    refine Finset.sum_eq_zero (fun j _ => ?_)
    rw [hmask j, mul_zero]
  refine ⟨by rw [hS]; norm_num, fun k => ?_, ?_⟩
  · unfold mask_weights
    rw [hmask k, mul_zero, zero_div]
  · refine Finset.sum_eq_zero (fun k _ => ?_)
    unfold mask_weights
    rw [hmask k, mul_zero, zero_div]

/-- Witness for C10: two key positions, both masked out. -/
theorem mask_weights_zero_row_witness :
    ((∑ j : Fin 2, (fun (_ : Fin 1) (_ : Fin 1) (_ : Fin 1) (_ : Fin 2) =>
        (1 : ℝ)) 0 0 0 j * (fun (_ : Fin 1) (_ : Fin 2) => (0 : ℝ)) 0 j)
        + 1e-8 ≠ 0)
    ∧ (∀ k, mask_weights
        (fun (_ : Fin 1) (_ : Fin 1) (_ : Fin 1) (_ : Fin 2) => (1 : ℝ))
        (fun (_ : Fin 1) (_ : Fin 2) => (0 : ℝ)) 0 0 0 k = 0)
    ∧ (∑ k, mask_weights
        (fun (_ : Fin 1) (_ : Fin 1) (_ : Fin 1) (_ : Fin 2) => (1 : ℝ))
        (fun (_ : Fin 1) (_ : Fin 2) => (0 : ℝ)) 0 0 0 k) = 0 :=
  mask_weights_zero_row
    (fun (_ : Fin 1) (_ : Fin 1) (_ : Fin 1) (_ : Fin 2) => (1 : ℝ))
    (fun (_ : Fin 1) (_ : Fin 2) => (0 : ℝ)) 0 0 0 (fun _ => rfl)

/-- C2: when the causal mask is requested, for every query position `q`
and key position `k` with `k > q` the returned attention weight is exactly
0: the energy is replaced by `-inf` before softmax (lower-triangular
keep), softmax maps it to exactly 0, and mask renormalization and dropout
both map 0 to 0. -/
theorem causal_weight_zero {B Tq Tk H hd : ℕ}
    (trainMode : Bool) (keepProb : ℝ)
    (keepMask : Fin B → Fin H → Fin Tq → Fin Tk → Bool)
    (attnMask : Option (Fin B → Fin Tk → ℝ))
    (Wq Wk Wv Wo : Fin (H * hd) → Fin (H * hd) → ℝ)
    (bq bk bv bo : Fin (H * hd) → ℝ)
    (query_3d : Fin B → Fin Tq → Fin (H * hd) → ℝ)
    (keys values : Fin B → Fin Tk → Fin (H * hd) → ℝ)
    (b : Fin B) (h : Fin H) (q : Fin Tq) (k : Fin Tk)
    (hqk : (q : ℕ) < (k : ℕ)) :
    (attention_4d trainMode keepProb keepMask attnMask Wq Wk Wv Wo bq bk bv
        bo query_3d keys values true).2 b h q k = 0 := by
  have hsm : ∀ E : Fin B → Fin H → Fin Tq → Fin Tk → ℝ,
      softmax4d (mask_future E) b h q k = 0 := by
    intro E
    unfold softmax4d mask_future
    rw [if_neg (Nat.not_le.mpr hqk)]
    rw [show Energy.exp .negInf = 0 from rfl, zero_div]
  have hmw : ∀ (w : Fin B → Fin H → Fin Tq → Fin Tk → ℝ)
      (m : Fin B → Fin Tk → ℝ), w b h q k = 0 →
      mask_weights w m b h q k = 0 := by
    intro w m hw
    unfold mask_weights
    rw [hw, zero_mul, zero_div]
  rcases attnMask with _ | m
  · show dropoutEl keepProb trainMode (keepMask b h q k)
      (softmax4d (mask_future _) b h q k) = 0
    rw [hsm, dropoutEl_zero]
  · show dropoutEl keepProb trainMode (keepMask b h q k)
      (mask_weights (softmax4d (mask_future _)) m b h q k) = 0
    rw [hmw _ m (hsm _), dropoutEl_zero]

/-- Witness for C2: two query and key positions, `q = 0 < 1 = k`, with
concrete (zero) parameters and a present all-ones validity mask. -/
theorem causal_weight_zero_witness :
    (@attention_4d 1 2 2 1 1 false 1
        (fun _ _ _ _ => true) (some (fun _ _ => 1))
        (fun _ _ => 0) (fun _ _ => 0) (fun _ _ => 0) (fun _ _ => 0)
        (fun _ => 0) (fun _ => 0) (fun _ => 0) (fun _ => 0)
        (fun _ _ _ => 1) (fun _ _ _ => 1) (fun _ _ _ => 1) true).2 0 0 0 1
      = 0 :=
  causal_weight_zero false 1 (fun _ _ _ _ => true) (some (fun _ _ => 1))
    (fun _ _ => 0) (fun _ _ => 0) (fun _ _ => 0) (fun _ _ => 0)
    (fun _ => 0) (fun _ => 0) (fun _ => 0) (fun _ => 0)
    (fun _ _ _ => 1) (fun _ _ _ => 1) (fun _ _ _ => 1) 0 0 0 1 (by decide)

/-- C1 (amended): after softmax and mask renormalization, every position
whose mask entry is 0 receives exactly 0 weight — unconditionally; and
each row of the renormalized weight tensor sums to 1 within 1e-6 provided
the row's surviving softmax mass `Σₖ softmaxₖ · maskₖ` is at least 1e-2
(the renormalized row sum is `S / (S + 1e-8)`, which misses 1 by more
than 1e-6 for smaller surviving mass `S`; see the counterexample). -/
theorem mask_renorm_row_sum {B H Tq Tk : ℕ}
    (e : Fin B → Fin H → Fin Tq → Fin Tk → Energy)
    (mask : Fin B → Fin Tk → ℝ) (b : Fin B) (h : Fin H) (q : Fin Tq) :
    ((1e-2 : ℝ) ≤ ∑ k, softmax4d e b h q k * mask b k →
      |(∑ k, mask_weights (softmax4d e) mask b h q k) - 1| ≤ 1e-6)
    ∧ ∀ k, mask b k = 0 → mask_weights (softmax4d e) mask b h q k = 0 := by
  constructor
  · intro hS
    have hsum : (∑ k, mask_weights (softmax4d e) mask b h q k)
        = (∑ k, softmax4d e b h q k * mask b k) /
            ((∑ k, softmax4d e b h q k * mask b k) + 1e-8) := by
      unfold mask_weights
      rw [← Finset.sum_div]
    rw [hsum]
    set S := ∑ k, softmax4d e b h q k * mask b k with hSdef
    have he2 : (1e-2 : ℝ) = 1 / 100 := by norm_num
    have he8 : (1e-8 : ℝ) = 1 / 100000000 := by norm_num
    have hpos : (0 : ℝ) < S + 1e-8 := by
      rw [he8]
      rw [he2] at hS
      linarith
    have hne : S + 1e-8 ≠ 0 := ne_of_gt hpos
    rw [div_sub_one hne, show S - (S + 1e-8) = -(1e-8) from by ring, neg_div,
      abs_neg, abs_of_nonneg (div_nonneg (by norm_num) hpos.le)]
    have hmono : (1e-8 : ℝ) / (S + 1e-8) ≤ 1e-8 / 1e-2 := by
      apply div_le_div_of_nonneg_left (by norm_num) (by norm_num)
      rw [he2, he8]
      rw [he2] at hS
      linarith
    calc (1e-8 : ℝ) / (S + 1e-8) ≤ 1e-8 / 1e-2 := hmono
      _ ≤ 1e-6 := by norm_num
  · intro k hk
    unfold mask_weights
    rw [hk, mul_zero, zero_div]

/-- Witness for C1's amended theorem: a single always-valid key position
with zero energy: the surviving mass is 1 ≥ 1e-2. -/
theorem mask_renorm_row_sum_witness :
    (|(∑ k, mask_weights
        (softmax4d (fun (_ : Fin 1) (_ : Fin 1) (_ : Fin 1) (_ : Fin 1) =>
          Energy.val 0))
        (fun _ _ => (1 : ℝ)) 0 0 0 k) - 1| ≤ 1e-6)
    ∧ ∀ k, (fun (_ : Fin 1) (_ : Fin 1) => (1 : ℝ)) 0 k = 0 →
        mask_weights
          (softmax4d (fun (_ : Fin 1) (_ : Fin 1) (_ : Fin 1) (_ : Fin 1) =>
            Energy.val 0))
          (fun _ _ => (1 : ℝ)) 0 0 0 k = 0 :=
  ⟨(mask_renorm_row_sum
      (fun (_ : Fin 1) (_ : Fin 1) (_ : Fin 1) (_ : Fin 1) => Energy.val 0)
      (fun _ _ => (1 : ℝ)) 0 0 0).1
    (by
      simp [softmax4d, Energy.exp]
      norm_num),
   (mask_renorm_row_sum
      (fun (_ : Fin 1) (_ : Fin 1) (_ : Fin 1) (_ : Fin 1) => Energy.val 0)
      (fun _ _ => (1 : ℝ)) 0 0 0).2⟩

/-- C1 counterexample: with 200 keys of equal energy and a mask keeping
only the first, softmax is uniform (each weight `1/200`), the surviving
mass is `S = 1/200`, and the renormalized row sums to
`(1/200) / (1/200 + 1e-8) = 500000/500001`, which misses 1 by
`1/500001 ≈ 2e-6 > 1e-6`: the row-sum part of the claim as stated is
false. -/
theorem mask_renorm_sum_counterexample :
    ¬ |(∑ k, mask_weights
          (softmax4d (fun (_ : Fin 1) (_ : Fin 1) (_ : Fin 1) (_ : Fin 200) =>
            Energy.val 0))
          (fun _ k => if k = 0 then (1 : ℝ) else 0) 0 0 0 k) - 1| ≤ 1e-6 := by
  have hw : ∀ k : Fin 200,
      softmax4d (fun (_ : Fin 1) (_ : Fin 1) (_ : Fin 1) (_ : Fin 200) =>
        Energy.val 0) 0 0 0 k = 1 / 200 := by
    intro k
    simp [softmax4d, Energy.exp]
  have hsum : (∑ k, mask_weights
        (softmax4d (fun (_ : Fin 1) (_ : Fin 1) (_ : Fin 1) (_ : Fin 200) =>
          Energy.val 0))
        (fun _ k => if k = 0 then (1 : ℝ) else 0) 0 0 0 k)
      = (∑ k : Fin 200,
          softmax4d (fun (_ : Fin 1) (_ : Fin 1) (_ : Fin 1) (_ : Fin 200) =>
            Energy.val 0) 0 0 0 k * (if k = 0 then (1 : ℝ) else 0)) /
        ((∑ k : Fin 200,
          softmax4d (fun (_ : Fin 1) (_ : Fin 1) (_ : Fin 1) (_ : Fin 200) =>
            Energy.val 0) 0 0 0 k * (if k = 0 then (1 : ℝ) else 0)) + 1e-8) := by
    unfold mask_weights
    rw [← Finset.sum_div]
  have hmass : (∑ k : Fin 200,
      softmax4d (fun (_ : Fin 1) (_ : Fin 1) (_ : Fin 1) (_ : Fin 200) =>
        Energy.val 0) 0 0 0 k * (if k = 0 then (1 : ℝ) else 0)) = 1 / 200 := by
    rw [Finset.sum_congr rfl (fun k _ => by rw [hw k])]
    simp
  rw [hsum, hmass]
  rw [abs_of_neg (by norm_num)]
  norm_num

/-- C3: evaluation at the failing input of the single-head equivalence
claim.  With `H = 1`, `D = 1`, query = keys = values ≡ 1, no validity
mask, inference mode, keep probability 1 and the learned output
projection set to multiplication by 2 (zero bias), `attention_4d` returns
context `2` — the output projection of scaled_dot_product.py:193-194 is
applied even in single-head mode, although the module docstring says this
attention function has no trainable parameters — while plain scaled
dot-product attention `softmax(QKᵗ/√d)V` returns `1`. -/
theorem single_head_output_proj_divergence :
    (@attention_4d 1 1 1 1 1 false 1
        (fun _ _ _ _ => true) none
        (fun _ _ => 0) (fun _ _ => 0) (fun _ _ => 0) (fun _ _ => 2)
        (fun _ => 0) (fun _ => 0) (fun _ => 0) (fun _ => 0)
        (fun _ _ _ => 1) (fun _ _ _ => 1) (fun _ _ _ => 1) false).1 0 0 c0
      = 2
    ∧ @plainAttention 1 1 1 1
        (fun _ _ _ => 1) (fun _ _ _ => 1) (fun _ _ _ => 1) 0 0 0 = 1 := by
  constructor
  · have hsm : ∀ b h q k : Fin 1,
        softmax4d (toEnergyVal (dotEnergies
          (split_for_heads (scaleQuery 1
            (fun (_ : Fin 1) (_ : Fin 1) (_ : Fin (1 * 1)) => (1 : ℝ))))
          (split_for_heads
            (fun (_ : Fin 1) (_ : Fin 1) (_ : Fin (1 * 1)) => (1 : ℝ)))))
          b h q k = 1 := by
      intro b h q k
      unfold softmax4d toEnergyVal
      rw [Fin.sum_univ_one, Fin.eq_zero k]
      exact div_self (Real.exp_ne_zero _)
    simp only [attention_4d, reduceIte]
    simp only [hsm, dropoutEl_one, split_for_heads, one_mul, Fin.sum_univ_one]
    unfold denseLayer
    rw [sum_fin_one]
    unfold mergeHeads
    norm_num
    exact hsm _ _ _ _
  · simp [plainAttention, Fin.sum_univ_one, Real.exp_ne_zero]

end NeuralMonkey
